import Mathlib

/-!
Verification of the storj/benchmark measurement, statistics and rendering
core against its natural-language specification.

The Go sources are embedded shallowly:
* `time.Duration` values (int64 nanoseconds) become `Int`;
* `float64` values become `ℚ` (the claims under study depend only on exact
  arithmetic, ordering and indexing, never on IEEE rounding);
* slices become `List`, in-place sorting becomes a sorting function applied
  to the freshly allocated slice the code sorts;
* a Go slice-indexing expression that can panic becomes an `Option`-valued
  lookup, `none` marking the panic.
-/

namespace StorjBench

/-- `Result` from `cmd/metabase-benchmark/measurement.go`: a name together
with the recorded durations (nanosecond integers). -/
structure Result where
  Name : String
  Durations : List Int
deriving DecidableEq, Repr

/-- `Scenario` from `cmd/metabase-benchmark/benchmark.go`: the
(parts, segments) pair. -/
structure Scenario where
  Parts : Int
  Segments : Int
deriving DecidableEq, Repr

/-- `Measurement` from `cmd/metabase-benchmark/measurement.go`: an embedded
`Scenario` (fields promoted, as Go does) plus the ordered `Results`. -/
structure Measurement where
  Parts : Int
  Segments : Int
  Results : List Result
deriving DecidableEq, Repr

/-- Modelled from the spec: `BenchmarkResult` — "a named collection of
Measurements, representing one full run (live or loaded from a saved
file)". Its Go declaration is repository code not present under `src/`
(it is used by the loaders and renderers there). -/
structure BenchmarkResult where
  Name : String
  Measurements : List Measurement
deriving DecidableEq, Repr

/-- Modelled from the spec: `Measurement.ResultByName` — "lookup is by
exact string match; returns the first match; absence is not an error".
The Go method is repository code not present under `src/`; it is called
from the plot renderer (`PlotPercentiles`). -/
def Measurement.ResultByName (m : Measurement) (name : String) : Option Result :=
  m.Results.find? (fun r => r.Name = name)

/-- Helper for `Measurement.Record`: append duration `d` to the first
result named `name`, or report `none` when no result carries that name.
This captures the aliasing of the Go code, where `Measurement.Result`
returns a pointer to the first matching entry and the caller appends
through it. -/
def appendToFirst : List Result → String → Int → Option (List Result)
  | [], _, _ => none
  | r :: rs, name, d =>
    if r.Name = name then
      some ({ r with Durations := r.Durations ++ [d] } :: rs)
    else
      (appendToFirst rs name d).map (r :: ·)

/-- `Measurement.Record` from `cmd/metabase-benchmark/measurement.go`:
find-or-create the result named `name` (`Measurement.Result`), then append
the duration to it. A fresh result is appended at the end of `Results`. -/
def Measurement.Record (m : Measurement) (name : String) (d : Int) : Measurement :=
  match appendToFirst m.Results name d with
  | some rs => { m with Results := rs }
  | none => { m with Results := m.Results ++ [⟨name, [d]⟩] }

/-- `percentile` from the plot renderer source: `k := ⌈p·n⌉` clamped to
`n-1`, then index into the sorted samples. Go's `sorted[k]` panics when
`k` is out of range (only possible here for `k < 0`, i.e. an empty slice
or a negative quantile); the panic is modelled by `none`. -/
def percentile (sorted : List ℚ) (p : ℚ) : Option ℚ :=
  let k0 : Int := ⌈p * (sorted.length : ℚ)⌉
  let k : Int := if k0 ≥ (sorted.length : Int) then (sorted.length : Int) - 1 else k0
  if 0 ≤ k then sorted.get? k.toNat else none

/-- `max` from the plot renderer source (renamed: Lean already has `max`):
maximum of a float slice, undefined (`NaN` in Go, `none` here) for the
empty slice. -/
def maxFloats (vs : List ℚ) : Option ℚ :=
  match vs with
  | [] => none
  | v :: rest => some ((v :: rest).foldl max v)

/-- Modelled from the spec: the sample-set minimum used by the histogram
statistics ("`average` lies within `[min, max]` of the sample set"); the
concrete minimum computation lives in the external hrtime library. -/
def minFloats (vs : List ℚ) : Option ℚ :=
  match vs with
  | [] => none
  | v :: rest => some ((v :: rest).foldl min v)

/-- Modelled from the spec: "`average`: arithmetic mean" of the histogram
engine (computed by the external hrtime library). -/
def average (vs : List ℚ) : ℚ := vs.sum / (vs.length : ℚ)

/-- `plot.DurationTo(r.Durations, time.Millisecond)`: convert nanosecond
durations to milliseconds as floats, producing a fresh slice. -/
def durationTo (ds : List Int) : List ℚ :=
  ds.map (fun d : Int => (d : ℚ) / 1000000)

/-- `sort.Float64s`: sort ascending. The sorted rearrangement of a numeric
slice is unique, so any correct sorting algorithm embeds it. -/
def sortFloat64s (xs : List ℚ) : List ℚ := xs.insertionSort (· ≤ ·)

/-- The millisecond samples the plot renderer prepares for one result
(`PlotPercentiles` lines 116-117): a freshly converted slice, sorted. -/
def sortedMillis (r : Result) : List ℚ := sortFloat64s (durationTo r.Durations)

/-- One step of the y-axis-maximum loop of `PlotPercentiles`
(lines 109-125): a measurement without a result of the section's name is
skipped (`r == nil` / `continue`); otherwise
`yAxis.Max = max(yAxis.Max, percentile(millis, 0.98))`. A `none`
accumulator marks the panic Go raises when `percentile` indexes out of
bounds (which happens for an empty sample slice) and is absorbing. -/
def plotStepMeasurement (sectionName : String) (acc : Option ℚ) (m : Measurement) :
    Option ℚ :=
  match acc with
  | none => none
  | some y =>
    match m.ResultByName sectionName with
    | none => some y
    | some r =>
      match percentile (sortedMillis r) (49 / 50) with
      | none => none
      | some v => some (max y v)

/-- The shared y-axis upper bound of one (non-special) plot section
before `yAxis.MakeNice()`: the loop of `PlotPercentiles` lines 109-125
starting from the initial `yAxis.Max = 0.1` (line 98), over every run's
measurements. -/
def plotYMax (results : List BenchmarkResult) (sectionName : String) : Option ℚ :=
  results.foldl
    (fun acc br => br.Measurements.foldl (plotStepMeasurement sectionName) acc)
    (some (1 / 10))

/-- The curves contributing to one section, in loop order: for every run
and measurement holding a result of the section's name, the sorted
millisecond samples of that (first-matching) result. -/
def sectionCurves (results : List BenchmarkResult) (sectionName : String) :
    List (List ℚ) :=
  (results.map (fun br =>
    br.Measurements.filterMap (fun m => (m.ResultByName sectionName).map sortedMillis))).flatten

/-- `includeString` from the plot renderer source: append `v` unless it is
already present. -/
def includeString (xs : List String) (v : String) : List String :=
  if v ∈ xs then xs else xs ++ [v]

/-- The section-name collection of `PlotPercentiles` (lines 28-40): runs
in order, each run's measurements in reverse order, each measurement's
results in reverse order, `includeString` on every name; finally
`reverseStrings` reverses the accumulated list. -/
def collectSections (results : List BenchmarkResult) : List String :=
  (results.foldl
    (fun acc br =>
      br.Measurements.reverse.foldl
        (fun acc2 m =>
          m.Results.reverse.foldl (fun acc3 r => includeString acc3 r.Name) acc2)
        acc)
    []).reverse

/-- The stream of result names in the order the claim describes the scan
visiting them: runs in collection order, measurements and results in
reverse collection order. -/
def sectionScanNames (results : List BenchmarkResult) : List String :=
  (results.map (fun br =>
    (br.Measurements.reverse.map (fun m => m.Results.reverse.map Result.Name)).flatten)).flatten

/-- The claim's "append each result name on first encounter": fold the
name stream through `includeString`. -/
def firstEncounter (names : List String) : List String :=
  names.foldl includeString []

/-- Modelled from the spec: the statistics of the duration histogram the
table and stat renderers consume. The histogram itself is computed by the
external hrtime library; the spec fixes its contract — arithmetic-mean
average, true maximum clamped to the configured percentile ceiling for
display, and nearest-rank percentiles over a sorted copy (the very
formula of this repository's own `percentile` function). The options are
those passed in `measurement.go`: `ClampPercentile: 0.999`. An empty
sample list yields zeroed statistics. -/
structure Histogram where
  Average : ℚ
  Maximum : ℚ
  P50 : ℚ
  P90 : ℚ
  P99 : ℚ
deriving DecidableEq, Repr

/-- The nanosecond samples as floats (the conversion
`hrtime.NewDurationHistogram` performs before `NewHistogram`). -/
def nsFloats (ds : List Int) : List ℚ := ds.map (fun d : Int => (d : ℚ))

/-- Modelled from the spec (see `Histogram`): `hrtime.NewDurationHistogram`
on nanosecond duration samples. -/
def NewDurationHistogram (ds : List Int) : Histogram :=
  if ds.isEmpty then ⟨0, 0, 0, 0, 0⟩
  else
    { Average := average (nsFloats ds)
      Maximum := min ((maxFloats (sortFloat64s (nsFloats ds))).getD 0)
        ((percentile (sortFloat64s (nsFloats ds)) (999 / 1000)).getD 0)
      P50 := (percentile (sortFloat64s (nsFloats ds)) (1 / 2)).getD 0
      P90 := (percentile (sortFloat64s (nsFloats ds)) (9 / 10)).getD 0
      P99 := (percentile (sortFloat64s (nsFloats ds)) (99 / 100)).getD 0 }

/-- Go's `fmt.Sprintf("%.2f", x)` for nonnegative values: two decimal
places (round-to-nearest; the tie-breaking mode is immaterial for the
exact values appearing in these claims). -/
def fmt2 (q : ℚ) : String :=
  toString ((⌊q * 100 + 1 / 2⌋).toNat / 100) ++ "." ++
    (if (⌊q * 100 + 1 / 2⌋).toNat % 100 < 10 then "0" else "") ++
    toString ((⌊q * 100 + 1 / 2⌋).toNat % 100)

/-- The `msec` helper of `Measurement.PrintStats`: nanoseconds to
milliseconds, two decimal places. -/
def msec (ns : ℚ) : String := fmt2 (ns / 1000000)

/-- One data row of the measurement table (`WriteTable` /
`Measurement.PrintStats`). -/
structure Row where
  Parts : Int
  Segments : Int
  Name : String
  Avg : String
  Max : String
  P50 : String
  P90 : String
  P99 : String
deriving DecidableEq, Repr

/-- `Measurement.PrintStats` from `measurement.go`: one row per result,
columns parts, segments, name, then Avg/Max/P50/P90/P99 in milliseconds
formatted to two decimals. -/
def Measurement.PrintStats (m : Measurement) : List Row :=
  m.Results.map (fun r =>
    ⟨m.Parts, m.Segments, r.Name,
      msec (NewDurationHistogram r.Durations).Average,
      msec (NewDurationHistogram r.Durations).Maximum,
      msec (NewDurationHistogram r.Durations).P50,
      msec (NewDurationHistogram r.Durations).P90,
      msec (NewDurationHistogram r.Durations).P99⟩)

/-- The data rows `WriteTable` emits (its two header rows are constant
and precede these). -/
def WriteTable (measurements : List Measurement) : List Row :=
  (measurements.map Measurement.PrintStats).flatten

/-- The JSON value tree of the save/load schema. -/
inductive Json where
  | str (s : String)
  | int (n : Int)
  | arr (elems : List Json)
  | obj (fields : List (String × Json))

/-- Encoding of a `Result` under Go's `encoding/json` field rules. -/
def encodeResult (r : Result) : Json :=
  .obj [("Name", .str r.Name), ("Durations", .arr (r.Durations.map Json.int))]

/-- Encoding of a `Measurement`: the embedded `Scenario` fields are
promoted, so the object is `{Parts, Segments, Results}`. -/
def encodeMeasurement (m : Measurement) : Json :=
  .obj [("Parts", .int m.Parts), ("Segments", .int m.Segments),
    ("Results", .arr (m.Results.map encodeResult))]

/-- Encoding of a saved run: a JSON array of measurement objects. -/
def encodeMeasurements (ms : List Measurement) : Json :=
  .arr (ms.map encodeMeasurement)

/-- Modelled from the spec: decoding of the save/load schema ("a JSON
array of Measurement objects: each an object with integer `Parts`,
`Segments`, and a `Results` array of `{Name, Durations}`"); the concrete
decoder is Go's reflection-based `json.Unmarshal`, restricted here to the
schema shape the encoder produces. -/
def decodeInt : Json → Option Int
  | .int n => some n
  | _ => none

/-- Modelled from the spec (see `decodeInt`): decode one result object. -/
def decodeResult : Json → Option Result
  | .obj [("Name", .str n), ("Durations", .arr ds)] =>
    (ds.mapM decodeInt).map (fun l => ⟨n, l⟩)
  | _ => none

/-- Modelled from the spec (see `decodeInt`): decode one measurement
object. -/
def decodeMeasurement : Json → Option Measurement
  | .obj [("Parts", .int p), ("Segments", .int s), ("Results", .arr rs)] =>
    (rs.mapM decodeResult).map (fun l => ⟨p, s, l⟩)
  | _ => none

/-- Modelled from the spec (see `decodeInt`): decode a saved run. -/
def decodeMeasurements : Json → Option (List Measurement)
  | .arr ms => ms.mapM decodeMeasurement
  | _ => none

/-- The outcome of one requested output mode in `main`'s dispatch loop. -/
inductive RenderOutcome where
  | usageError
  | rendered
  | unknownType
deriving DecidableEq, Repr

/-- The output dispatch of `main` (lines 96-157 of the loader/renderer
source): each requested output is handled by an immediately invoked
closure. `table`, `std` and `json` first check `len(results) != 1` and
report an error — returning from the closure before any rendering, so the
erroneous call produces no (partial) output; `plot-percentile` renders
for any number of runs; an unknown type is reported as unsupported. The
early `return` leaves only the closure, so later outputs still run. -/
def dispatchOne (results : List BenchmarkResult) (typ : String) : RenderOutcome :=
  if typ = "table" ∨ typ = "std" ∨ typ = "json" then
    if results.length ≠ 1 then .usageError else .rendered
  else if typ = "plot-percentile" then .rendered
  else .unknownType

/-- The whole dispatch loop: every requested output is processed,
independently of earlier outcomes. -/
def dispatch (results : List BenchmarkResult) (outs : List String) :
    List RenderOutcome :=
  outs.map (dispatchOne results)

/-- Lines 116-120 of the plot renderer for one result: build the
millisecond slice (`plot.DurationTo` allocates a fresh slice), sort it in
place (`sort.Float64s` mutates only that copy), and hand the sorted copy
to the plot. The first component is the `Result` as the code leaves it:
`r.Durations` is only ever read. -/
def plotProcessResult (r : Result) : Result × List ℚ :=
  let millis := durationTo r.Durations
  let sorted := sortFloat64s millis
  (r, sorted)

/-- A loadable measurement holding a present result named "Op" with zero
samples (e.g. from the saved-run JSON `[{"Parts":1,"Segments":1,
"Results":[{"Name":"Op","Durations":[]}]}]`). -/
def c2Measurement : Measurement := ⟨1, 1, [⟨"Op", []⟩]⟩

/-- One loaded run containing `c2Measurement`. -/
def c2Results : List BenchmarkResult := [⟨"run", [c2Measurement]⟩]

/-- The end-to-end scenario of the spec: three durations 10ms, 20ms, 30ms
under result name "Op" for scenario (parts=1, segments=0). -/
def c3Measurement : Measurement :=
  ⟨1, 0, [⟨"Op", [10000000, 20000000, 30000000]⟩]⟩

/-- One run whose only curve has all samples far below 0.1 ms. -/
def c4Results : List BenchmarkResult := [⟨"run", [⟨1, 1, [⟨"Op", [1000]⟩]⟩]⟩]

/-- One run with a single one-sample curve (witness data). -/
def c4WitnessResults : List BenchmarkResult :=
  [⟨"run", [⟨1, 1, [⟨"Op", [1000000]⟩]⟩]⟩]

end StorjBench

namespace StorjBench

/- ### Basic facts about `percentile` (shared helper lemmas) -/

/-- For a non-empty list and `0 ≤ p ≤ 1`, `percentile` is the clamped
nearest-rank lookup and is always defined. -/
theorem percentile_eq_get? (xs : List ℚ) (p : ℚ) (hne : xs ≠ [])
    (h0 : 0 ≤ p) (h1 : p ≤ 1) :
    percentile xs p = xs.get? (min (⌈p * (xs.length : ℚ)⌉).toNat (xs.length - 1)) := by
  have hlen : 0 < xs.length := List.length_pos.mpr hne
  have hk0 : (0 : ℤ) ≤ ⌈p * (xs.length : ℚ)⌉ := by
    apply Int.ceil_nonneg
    exact mul_nonneg h0 (by positivity)
  have hkn : ⌈p * (xs.length : ℚ)⌉ ≤ (xs.length : ℤ) := by
    have : p * (xs.length : ℚ) ≤ (xs.length : ℚ) := by
      calc p * (xs.length : ℚ) ≤ 1 * (xs.length : ℚ) := by
            apply mul_le_mul_of_nonneg_right h1 (by positivity)
        _ = (xs.length : ℚ) := one_mul _
    calc ⌈p * (xs.length : ℚ)⌉ ≤ ⌈(xs.length : ℚ)⌉ := Int.ceil_le_ceil this
      _ = (xs.length : ℤ) := by exact_mod_cast Int.ceil_intCast (xs.length : ℤ)
  unfold percentile
  by_cases hge : ⌈p * (xs.length : ℚ)⌉ ≥ (xs.length : ℤ)
  · have hkeq : ⌈p * (xs.length : ℚ)⌉ = (xs.length : ℤ) := le_antisymm hkn hge
    have hnn : (0 : ℤ) ≤ (xs.length : ℤ) - 1 := by omega
    simp only [hge, if_true, hnn, if_pos]
    congr 1
    have htn : (⌈p * (xs.length : ℚ)⌉).toNat = xs.length := by omega
    have : ((xs.length : ℤ) - 1).toNat = xs.length - 1 := by omega
    rw [this, htn]
    omega
  · push_neg at hge
    simp only [ge_iff_le, not_le.mpr hge, if_false, hk0, if_pos]
    congr 1
    have htn : (⌈p * (xs.length : ℚ)⌉).toNat < xs.length := by omega
    omega

/-- `percentile` is defined (returns `some`) on non-empty input for
quantiles in `[0, 1]`. -/
theorem percentile_isSome (xs : List ℚ) (p : ℚ) (hne : xs ≠ [])
    (h0 : 0 ≤ p) (h1 : p ≤ 1) : ∃ v, percentile xs p = some v := by
  have hlen : 0 < xs.length := List.length_pos.mpr hne
  rw [percentile_eq_get? xs p hne h0 h1]
  have hidx : min (⌈p * (xs.length : ℚ)⌉).toNat (xs.length - 1) < xs.length := by
    have : xs.length - 1 < xs.length := by omega
    omega
  exact ⟨xs.get ⟨_, hidx⟩, List.get?_eq_get hidx⟩

/-- C1: for every non-empty slice sorted ascending and quantile `q ∈ [0,1]`,
`percentile` returns the element at index `min(⌈q·n⌉, n-1)`; `q = 0`
returns the minimum element and the lookup is always in bounds (nearest
rank, no interpolation). -/
theorem C1_percentile_nearest_rank (xs : List ℚ) (q : ℚ)
    (hne : xs ≠ []) (hsorted : List.Sorted (· ≤ ·) xs)
    (h0 : 0 ≤ q) (h1 : q ≤ 1) :
    percentile xs q = xs.get? (min (⌈q * (xs.length : ℚ)⌉).toNat (xs.length - 1)) ∧
    (∃ v, percentile xs q = some v) ∧
    (∃ v, percentile xs 0 = some v ∧ ∀ u ∈ xs, v ≤ u) := by
  refine ⟨percentile_eq_get? xs q hne h0 h1, percentile_isSome xs q hne h0 h1, ?_⟩
  obtain ⟨a, t, rfl⟩ : ∃ a t, xs = a :: t := by
    cases xs with
    | nil => exact absurd rfl hne
    | cons a t => exact ⟨a, t, rfl⟩
  refine ⟨a, ?_, ?_⟩
  · rw [percentile_eq_get? _ 0 hne le_rfl zero_le_one]
    simp
  · intro u hu
    rcases List.mem_cons.mp hu with rfl | hu
    · exact le_rfl
    · exact (List.sorted_cons.mp hsorted).1 u hu

/-- Witness for C1 at the concrete sorted slice `[1, 2, 3]` and `q = 1`. -/
theorem C1_percentile_nearest_rank_witness :
    percentile [(1 : ℚ), 2, 3] 1 =
      [(1 : ℚ), 2, 3].get?
        (min (⌈(1 : ℚ) * (([(1 : ℚ), 2, 3].length : ℕ) : ℚ)⌉).toNat
          ([(1 : ℚ), 2, 3].length - 1)) ∧
    (∃ v, percentile [(1 : ℚ), 2, 3] 1 = some v) ∧
    (∃ v, percentile [(1 : ℚ), 2, 3] 0 = some v ∧ ∀ u ∈ [(1 : ℚ), 2, 3], v ≤ u) :=
  C1_percentile_nearest_rank [(1 : ℚ), 2, 3] 1 (by decide) (by decide)
    zero_le_one le_rfl

/- ### Fold-based max/min facts (helpers for the algebraic claims) -/

theorem le_foldl_max (l : List ℚ) (a : ℚ) : a ≤ l.foldl max a := by
  induction l generalizing a with
  | nil => exact le_rfl
  | cons x t ih => exact le_trans (le_max_left a x) (ih (max a x))

theorem mem_le_foldl_max (l : List ℚ) (a : ℚ) : ∀ x ∈ l, x ≤ l.foldl max a := by
  induction l generalizing a with
  | nil => intro x hx; cases hx
  | cons y t ih =>
    intro x hx
    rcases List.mem_cons.mp hx with rfl | hx
    · exact le_trans (le_max_right a x) (le_foldl_max t (max a x))
    · exact ih (max a y) x hx

theorem foldl_min_le (l : List ℚ) (a : ℚ) : l.foldl min a ≤ a := by
  induction l generalizing a with
  | nil => exact le_rfl
  | cons x t ih => exact le_trans (ih (min a x)) (min_le_left a x)

theorem foldl_min_le_mem (l : List ℚ) (a : ℚ) : ∀ x ∈ l, l.foldl min a ≤ x := by
  induction l generalizing a with
  | nil => intro x hx; cases hx
  | cons y t ih =>
    intro x hx
    rcases List.mem_cons.mp hx with rfl | hx
    · exact le_trans (foldl_min_le t (min a x)) (min_le_right a x)
    · exact ih (min a y) x hx

theorem maxFloats_spec (xs : List ℚ) (hne : xs ≠ []) :
    ∃ M, maxFloats xs = some M ∧ ∀ x ∈ xs, x ≤ M := by
  obtain ⟨v, rest, rfl⟩ : ∃ v rest, xs = v :: rest := by
    cases xs with
    | nil => exact absurd rfl hne
    | cons v rest => exact ⟨v, rest, rfl⟩
  exact ⟨(v :: rest).foldl max v, rfl, mem_le_foldl_max (v :: rest) v⟩

theorem minFloats_spec (xs : List ℚ) (hne : xs ≠ []) :
    ∃ mn, minFloats xs = some mn ∧ ∀ x ∈ xs, mn ≤ x := by
  obtain ⟨v, rest, rfl⟩ : ∃ v rest, xs = v :: rest := by
    cases xs with
    | nil => exact absurd rfl hne
    | cons v rest => exact ⟨v, rest, rfl⟩
  exact ⟨(v :: rest).foldl min v, rfl, foldl_min_le_mem (v :: rest) v⟩

/- ### Sorting facts -/

theorem sortFloat64s_perm (xs : List ℚ) : List.Perm (sortFloat64s xs) xs :=
  List.perm_insertionSort _ xs

theorem sortFloat64s_sorted (xs : List ℚ) : List.Sorted (· ≤ ·) (sortFloat64s xs) :=
  List.sorted_insertionSort _ xs

theorem sortFloat64s_length (xs : List ℚ) : (sortFloat64s xs).length = xs.length :=
  (sortFloat64s_perm xs).length_eq

theorem sortFloat64s_ne_nil (xs : List ℚ) (hne : xs ≠ []) : sortFloat64s xs ≠ [] := by
  intro h
  apply hne
  have := sortFloat64s_length xs
  rw [h] at this
  exact List.length_eq_zero.mp this.symm

/-- On a sorted list, `percentile` is monotone in the quantile. -/
theorem percentile_le_percentile (s : List ℚ) (p q : ℚ) (hne : s ≠ [])
    (hs : List.Sorted (· ≤ ·) s) (h0 : 0 ≤ p) (hpq : p ≤ q) (h1 : q ≤ 1)
    (a b : ℚ) (ha : percentile s p = some a) (hb : percentile s q = some b) :
    a ≤ b := by
  rw [percentile_eq_get? s p hne h0 (hpq.trans h1)] at ha
  rw [percentile_eq_get? s q hne (h0.trans hpq) h1] at hb
  have hle : min (⌈p * (s.length : ℚ)⌉).toNat (s.length - 1) ≤
      min (⌈q * (s.length : ℚ)⌉).toNat (s.length - 1) := by
    have h₁ : ⌈p * (s.length : ℚ)⌉ ≤ ⌈q * (s.length : ℚ)⌉ :=
      Int.ceil_le_ceil (mul_le_mul_of_nonneg_right hpq (by positivity))
    exact min_le_min (Int.toNat_le_toNat h₁) le_rfl
  obtain ⟨hpa, hga⟩ := List.get?_eq_some.mp ha
  obtain ⟨hpb, hgb⟩ := List.get?_eq_some.mp hb
  rw [← hga, ← hgb]
  exact hs.rel_get_of_le (Fin.mk_le_mk.mpr hle)

/-- C6: for every non-empty duration sequence, `percentile` over the
sorted samples is monotone in the quantile (hence `P0 ≤ P50 ≤ P90 ≤ P99`),
every percentile value is at most the maximum, and the arithmetic mean
lies within `[min, max]` of the sample set. -/
theorem C6_percentile_monotone_and_mean_bounds (xs : List ℚ) (p q : ℚ)
    (hne : xs ≠ []) (h0 : 0 ≤ p) (hpq : p ≤ q) (h1 : q ≤ 1) :
    ∃ a b M mn,
      percentile (sortFloat64s xs) p = some a ∧
      percentile (sortFloat64s xs) q = some b ∧
      maxFloats xs = some M ∧ minFloats xs = some mn ∧
      a ≤ b ∧ b ≤ M ∧ mn ≤ average xs ∧ average xs ≤ M := by
  have hsne := sortFloat64s_ne_nil xs hne
  have hs := sortFloat64s_sorted xs
  obtain ⟨a, ha⟩ := percentile_isSome _ p hsne h0 (hpq.trans h1)
  obtain ⟨b, hb⟩ := percentile_isSome _ q hsne (h0.trans hpq) h1
  obtain ⟨M, hM, hMle⟩ := maxFloats_spec xs hne
  obtain ⟨mn, hmn, hmnle⟩ := minFloats_spec xs hne
  have hlen0 : 0 < xs.length := List.length_pos.mpr hne
  have hlen : (0 : ℚ) < (xs.length : ℚ) := by exact_mod_cast hlen0
  refine ⟨a, b, M, mn, ha, hb, hM, hmn, ?_, ?_, ?_, ?_⟩
  · exact percentile_le_percentile _ p q hsne hs h0 hpq h1 a b ha hb
  · have hbmem : b ∈ sortFloat64s xs := by
      rw [percentile_eq_get? _ q hsne (h0.trans hpq) h1] at hb
      exact List.get?_mem hb
    exact hMle b ((sortFloat64s_perm xs).subset hbmem)
  · have hsum : (xs.length : ℚ) * mn ≤ xs.sum := by
      have h₂ := List.card_nsmul_le_sum xs mn hmnle
      rwa [nsmul_eq_mul] at h₂
    rw [average, le_div_iff₀ hlen]
    linarith
  · have hsum : xs.sum ≤ (xs.length : ℚ) * M := by
      have h₂ := List.sum_le_card_nsmul xs M hMle
      rwa [nsmul_eq_mul] at h₂
    rw [average, div_le_iff₀ hlen]
    linarith

/-- Witness for C6 at the sequence `[2, 1]` with quantiles `0` and `1`. -/
theorem C6_percentile_monotone_and_mean_bounds_witness :
    ∃ a b M mn,
      percentile (sortFloat64s [(2 : ℚ), 1]) 0 = some a ∧
      percentile (sortFloat64s [(2 : ℚ), 1]) 1 = some b ∧
      maxFloats [(2 : ℚ), 1] = some M ∧ minFloats [(2 : ℚ), 1] = some mn ∧
      a ≤ b ∧ b ≤ M ∧ mn ≤ average [(2 : ℚ), 1] ∧ average [(2 : ℚ), 1] ≤ M :=
  C6_percentile_monotone_and_mean_bounds [(2 : ℚ), 1] 0 1 (by decide)
    le_rfl zero_le_one le_rfl

/- ### `Measurement.Record` semantics (C5) -/

theorem appendToFirst_eq_none (rs : List Result) (name : String) (d : Int)
    (h : name ∉ rs.map Result.Name) : appendToFirst rs name d = none := by
  induction rs with
  | nil => rfl
  | cons r t ih =>
    simp only [List.map_cons, List.mem_cons, not_or] at h
    have hne : ¬(r.Name = name) := fun he => h.1 he.symm
    simp only [appendToFirst, if_neg hne, ih h.2, Option.map_none']

theorem appendToFirst_eq_some (rs : List Result) (name : String) (d : Int)
    (hnd : (rs.map Result.Name).Nodup) (h : name ∈ rs.map Result.Name) :
    appendToFirst rs name d =
      some (rs.map (fun r => if r.Name = name then
        { r with Durations := r.Durations ++ [d] } else r)) := by
  induction rs with
  | nil => simp at h
  | cons r t ih =>
    simp only [List.map_cons, List.nodup_cons] at hnd
    by_cases he : r.Name = name
    · simp only [appendToFirst, if_pos he, List.map_cons, if_pos he]
      have htail : t.map (fun r => if r.Name = name then
          { r with Durations := r.Durations ++ [d] } else r) = t.map id := by
        apply List.map_congr_left
        intro x hx
        have hxne : x.Name ≠ name := by
          intro hxe
          apply hnd.1
          have hmm : x.Name ∈ t.map Result.Name := List.mem_map_of_mem Result.Name hx
          rwa [hxe, ← he] at hmm
        simp [if_neg hxne]
      rw [htail, List.map_id]
    · have hmem : name ∈ t.map Result.Name := by
        rcases List.mem_cons.mp h with h' | h'
        · exact absurd h'.symm he
        · exact h'
      simp only [appendToFirst, if_neg he, ih hnd.2 hmem, Option.map_some',
        List.map_cons, if_neg he]

/-- C5: `Record(name, d)` appends `d` to the (first, and under unique
names only) `Result` named `name` when one exists, and otherwise appends
a fresh `Result` at the end; the name sequence stays the same or gains
`name` at its end, and uniqueness of names is preserved. -/
theorem C5_record_find_or_create (m : Measurement) (name : String) (d : Int)
    (hnd : (m.Results.map Result.Name).Nodup) :
    (name ∉ m.Results.map Result.Name →
      (m.Record name d).Results = m.Results ++ [⟨name, [d]⟩]) ∧
    (name ∈ m.Results.map Result.Name →
      (m.Record name d).Results =
        m.Results.map (fun r => if r.Name = name then
          { r with Durations := r.Durations ++ [d] } else r)) ∧
    ((m.Record name d).Results.map Result.Name =
      if name ∈ m.Results.map Result.Name then m.Results.map Result.Name
      else m.Results.map Result.Name ++ [name]) ∧
    ((m.Record name d).Results.map Result.Name).Nodup := by
  by_cases hmem : name ∈ m.Results.map Result.Name
  · have hres : (m.Record name d).Results =
        m.Results.map (fun r => if r.Name = name then
          { r with Durations := r.Durations ++ [d] } else r) := by
      unfold Measurement.Record
      rw [appendToFirst_eq_some m.Results name d hnd hmem]
    have hnames : (m.Record name d).Results.map Result.Name =
        m.Results.map Result.Name := by
      rw [hres, List.map_map]
      apply List.map_congr_left
      intro r _
      by_cases he : r.Name = name <;> simp [he]
    refine ⟨fun h => absurd hmem h, fun _ => hres, ?_, ?_⟩
    · rw [hnames, if_pos hmem]
    · rw [hnames]; exact hnd
  · have hres : (m.Record name d).Results = m.Results ++ [⟨name, [d]⟩] := by
      unfold Measurement.Record
      rw [appendToFirst_eq_none m.Results name d hmem]
    have hnames : (m.Record name d).Results.map Result.Name =
        m.Results.map Result.Name ++ [name] := by
      rw [hres, List.map_append]; rfl
    refine ⟨fun _ => hres, fun h => absurd h hmem, ?_, ?_⟩
    · rw [hnames, if_neg hmem]
    · rw [hnames]
      apply List.Nodup.append hnd (List.nodup_singleton name)
      intro x hx hx2
      rw [List.mem_singleton] at hx2
      exact hmem (hx2 ▸ hx)

/-- Witness for C5: record into `⟨1, 0, [⟨"A", [5]⟩]⟩` under the existing
name `"A"` (the hypothesis: the names are unique). -/
theorem C5_record_find_or_create_witness :
    ("A" ∉ (Measurement.mk 1 0 [⟨"A", [5]⟩]).Results.map Result.Name →
      ((Measurement.mk 1 0 [⟨"A", [5]⟩]).Record "A" 7).Results =
        (Measurement.mk 1 0 [⟨"A", [5]⟩]).Results ++ [⟨"A", [7]⟩]) ∧
    ("A" ∈ (Measurement.mk 1 0 [⟨"A", [5]⟩]).Results.map Result.Name →
      ((Measurement.mk 1 0 [⟨"A", [5]⟩]).Record "A" 7).Results =
        (Measurement.mk 1 0 [⟨"A", [5]⟩]).Results.map (fun r => if r.Name = "A" then
          { r with Durations := r.Durations ++ [7] } else r)) ∧
    (((Measurement.mk 1 0 [⟨"A", [5]⟩]).Record "A" 7).Results.map Result.Name =
      if "A" ∈ (Measurement.mk 1 0 [⟨"A", [5]⟩]).Results.map Result.Name then
        (Measurement.mk 1 0 [⟨"A", [5]⟩]).Results.map Result.Name
      else (Measurement.mk 1 0 [⟨"A", [5]⟩]).Results.map Result.Name ++ ["A"]) ∧
    (((Measurement.mk 1 0 [⟨"A", [5]⟩]).Record "A" 7).Results.map Result.Name).Nodup :=
  C5_record_find_or_create (Measurement.mk 1 0 [⟨"A", [5]⟩]) "A" 7 (by decide)

/- ### Frame property of the renderer (C10) -/

/-- C10: the percentile pipeline never mutates the input durations — the
post-state of the `Result` equals its pre-state, and the slice that gets
sorted is a separate converted copy (a permutation of the converted
samples, sorted ascending). -/
theorem C10_rendering_never_mutates_durations (r : Result) :
    (plotProcessResult r).1 = r ∧
    List.Perm (plotProcessResult r).2 (durationTo r.Durations) ∧
    List.Sorted (· ≤ ·) (plotProcessResult r).2 :=
  ⟨rfl, sortFloat64s_perm _, sortFloat64s_sorted _⟩

/- ### Output dispatch (C8) -/

/-- C8: with more than one result set, each single-run renderer reports a
usage error (producing no output for that render call), the
percentile-plot mode still renders, and each requested output is
dispatched independently of the outcomes of the others. -/
theorem C8_single_run_renderers_usage_error (results : List BenchmarkResult)
    (h : 2 ≤ results.length) :
    dispatchOne results "table" = RenderOutcome.usageError ∧
    dispatchOne results "std" = RenderOutcome.usageError ∧
    dispatchOne results "json" = RenderOutcome.usageError ∧
    dispatchOne results "plot-percentile" = RenderOutcome.rendered ∧
    (∀ pre post t, dispatch results (pre ++ t :: post) =
      dispatch results pre ++ dispatchOne results t :: dispatch results post) := by
  have hne : results.length ≠ 1 := by omega
  refine ⟨?_, ?_, ?_, ?_, ?_⟩
  · unfold dispatchOne
    rw [if_pos (Or.inl rfl), if_pos hne]
  · unfold dispatchOne
    rw [if_pos (Or.inr (Or.inl rfl)), if_pos hne]
  · unfold dispatchOne
    rw [if_pos (Or.inr (Or.inr rfl)), if_pos hne]
  · unfold dispatchOne
    rw [if_neg (by decide), if_pos rfl]
  · intro pre post t
    unfold dispatch
    rw [List.map_append, List.map_cons]

/-- Witness for C8 with two loaded runs. -/
theorem C8_single_run_renderers_usage_error_witness :
    dispatchOne [⟨"a", []⟩, ⟨"b", []⟩] "table" = RenderOutcome.usageError ∧
    dispatchOne [⟨"a", []⟩, ⟨"b", []⟩] "std" = RenderOutcome.usageError ∧
    dispatchOne [⟨"a", []⟩, ⟨"b", []⟩] "json" = RenderOutcome.usageError ∧
    dispatchOne [⟨"a", []⟩, ⟨"b", []⟩] "plot-percentile" = RenderOutcome.rendered ∧
    (∀ pre post t, dispatch [⟨"a", []⟩, ⟨"b", []⟩] (pre ++ t :: post) =
      dispatch [⟨"a", []⟩, ⟨"b", []⟩] pre ++
        dispatchOne [⟨"a", []⟩, ⟨"b", []⟩] t :: dispatch [⟨"a", []⟩, ⟨"b", []⟩] post) :=
  C8_single_run_renderers_usage_error [⟨"a", []⟩, ⟨"b", []⟩] (by decide)

/- ### JSON round trip (C7) -/

theorem mapM_map_eq_some {α β : Type} (enc : α → β) (dec : β → Option α)
    (l : List α) (h : ∀ x ∈ l, dec (enc x) = some x) :
    (l.map enc).mapM dec = some l := by
  induction l with
  | nil => rfl
  | cons x t ih =>
    rw [List.map_cons, List.mapM_cons, h x (List.mem_cons_self x t),
      ih (fun y hy => h y (List.mem_cons_of_mem x hy))]
    rfl

theorem decodeResult_encodeResult (r : Result) :
    decodeResult (encodeResult r) = some r := by
  have h1 : decodeResult (encodeResult r) =
      ((r.Durations.map Json.int).mapM decodeInt).map (fun l => ⟨r.Name, l⟩) := rfl
  rw [h1, mapM_map_eq_some Json.int decodeInt r.Durations (fun x _ => rfl)]
  rfl

theorem decodeMeasurement_encodeMeasurement (m : Measurement) :
    decodeMeasurement (encodeMeasurement m) = some m := by
  have h1 : decodeMeasurement (encodeMeasurement m) =
      ((m.Results.map encodeResult).mapM decodeResult).map
        (fun l => ⟨m.Parts, m.Segments, l⟩) := rfl
  rw [h1, mapM_map_eq_some encodeResult decodeResult m.Results
    (fun x _ => decodeResult_encodeResult x)]
  rfl

/-- C7: encoding a measurement list to the JSON schema and decoding it
back yields the identical ordered structure — same scenario pairs, result
names and duration values, all in order. -/
theorem C7_json_round_trip (ms : List Measurement) :
    decodeMeasurements (encodeMeasurements ms) = some ms := by
  have h1 : decodeMeasurements (encodeMeasurements ms) =
      (ms.map encodeMeasurement).mapM decodeMeasurement := rfl
  rw [h1, mapM_map_eq_some encodeMeasurement decodeMeasurement ms
    (fun x _ => decodeMeasurement_encodeMeasurement x)]

/- ### Section collection (C9) -/

theorem mem_includeString (xs : List String) (v s : String) :
    s ∈ includeString xs v ↔ s ∈ xs ∨ s = v := by
  unfold includeString
  by_cases h : v ∈ xs
  · rw [if_pos h]
    constructor
    · exact Or.inl
    · rintro (hs | rfl)
      · exact hs
      · exact h
  · rw [if_neg h]
    simp [List.mem_append]

theorem nodup_includeString (xs : List String) (v : String) (h : xs.Nodup) :
    (includeString xs v).Nodup := by
  unfold includeString
  by_cases hv : v ∈ xs
  · rwa [if_pos hv]
  · rw [if_neg hv]
    apply List.Nodup.append h (List.nodup_singleton v)
    intro x hx hx2
    rw [List.mem_singleton] at hx2
    exact hv (hx2 ▸ hx)

theorem mem_foldl_includeString (l : List String) (acc : List String) (s : String) :
    s ∈ l.foldl includeString acc ↔ s ∈ acc ∨ s ∈ l := by
  induction l generalizing acc with
  | nil => simp
  | cons x t ih =>
    rw [List.foldl_cons, ih, mem_includeString]
    constructor
    · rintro ((h | rfl) | h)
      · exact Or.inl h
      · exact Or.inr (List.mem_cons_self _ t)
      · exact Or.inr (List.mem_cons_of_mem x h)
    · rintro (h | h)
      · exact Or.inl (Or.inl h)
      · rcases List.mem_cons.mp h with rfl | h
        · exact Or.inl (Or.inr rfl)
        · exact Or.inr h

theorem nodup_foldl_includeString (l : List String) (acc : List String)
    (h : acc.Nodup) : (l.foldl includeString acc).Nodup := by
  induction l generalizing acc with
  | nil => exact h
  | cons x t ih => exact ih _ (nodup_includeString acc x h)

theorem collectSections_eq_firstEncounter (results : List BenchmarkResult) :
    collectSections results = (firstEncounter (sectionScanNames results)).reverse := by
  unfold collectSections firstEncounter sectionScanNames
  congr 1
  simp only [List.foldl_flatten, List.foldl_map]

/-- C9: the plot sections are the reverse of a first-encounter
deduplicated scan of all result names — runs in order, measurements and
results in reverse collection order — and they list each distinct result
name across all runs exactly once. -/
theorem C9_plot_sections_order (results : List BenchmarkResult) :
    collectSections results = (firstEncounter (sectionScanNames results)).reverse ∧
    (collectSections results).Nodup ∧
    (∀ s, s ∈ collectSections results ↔
      ∃ br ∈ results, ∃ m ∈ br.Measurements, ∃ r ∈ m.Results, r.Name = s) := by
  refine ⟨collectSections_eq_firstEncounter results, ?_, ?_⟩
  · rw [collectSections_eq_firstEncounter, List.nodup_reverse]
    exact nodup_foldl_includeString _ _ List.nodup_nil
  · intro s
    rw [collectSections_eq_firstEncounter, List.mem_reverse]
    unfold firstEncounter
    rw [mem_foldl_includeString]
    simp only [List.not_mem_nil, false_or]
    unfold sectionScanNames
    simp only [List.mem_flatten, List.mem_map, List.mem_reverse]
    constructor
    · rintro ⟨l, ⟨br, hbr, rfl⟩, hs⟩
      rcases List.mem_flatten.mp hs with ⟨l2, hl2, hs2⟩
      rcases List.mem_map.mp hl2 with ⟨m, hm, rfl⟩
      rw [List.mem_reverse] at hm
      rcases List.mem_map.mp hs2 with ⟨r, hr, rfl⟩
      rw [List.mem_reverse] at hr
      exact ⟨br, hbr, m, hm, r, hr, rfl⟩
    · rintro ⟨br, hbr, m, hm, r, hr, rfl⟩
      refine ⟨_, ⟨br, hbr, rfl⟩, ?_⟩
      apply List.mem_flatten.mpr
      refine ⟨m.Results.reverse.map Result.Name, ?_, ?_⟩
      · exact List.mem_map.mpr ⟨m, List.mem_reverse.mpr hm, rfl⟩
      · exact List.mem_map.mpr ⟨r, List.mem_reverse.mpr hr, rfl⟩

/- ### Empty results and the percentile engine (C2) -/

theorem ResultByName_mem (m : Measurement) (s : String) (r : Result)
    (h : m.ResultByName s = some r) : r ∈ m.Results :=
  List.mem_of_find?_eq_some h

/-- On the empty slice, `percentile` clamps the index to `-1` and the Go
code panics (`sorted[-1]`): the embedded lookup is `none`. -/
theorem percentile_nil (p : ℚ) : percentile [] p = none := by
  unfold percentile
  norm_num

theorem sortedMillis_ne_nil (r : Result) (h : r.Durations ≠ []) :
    sortedMillis r ≠ [] := by
  apply sortFloat64s_ne_nil
  unfold durationTo
  intro hmap
  exact h (List.map_eq_nil_iff.mp hmap)

theorem plotStepMeasurement_eq_of_absent (sectionName : String) (m : Measurement)
    (y : ℚ) (hr : m.ResultByName sectionName = none) :
    plotStepMeasurement sectionName (some y) m = some y := by
  unfold plotStepMeasurement
  rw [hr]

theorem plotStepMeasurement_eq_of_found (sectionName : String) (m : Measurement)
    (y : ℚ) (r : Result) (hr : m.ResultByName sectionName = some r) :
    plotStepMeasurement sectionName (some y) m =
      match percentile (sortedMillis r) (49 / 50) with
      | none => none
      | some v => some (max y v) := by
  unfold plotStepMeasurement
  rw [hr]

theorem plotStep_some_of_nonempty (sectionName : String) (m : Measurement) (y : ℚ)
    (h : ∀ r ∈ m.Results, r.Durations ≠ []) :
    ∃ y1, plotStepMeasurement sectionName (some y) m = some y1 := by
  cases hr : m.ResultByName sectionName with
  | none => exact ⟨y, plotStepMeasurement_eq_of_absent sectionName m y hr⟩
  | some r =>
    have hne : sortedMillis r ≠ [] :=
      sortedMillis_ne_nil r (h r (ResultByName_mem m sectionName r hr))
    obtain ⟨v, hv⟩ :=
      percentile_isSome (sortedMillis r) (49 / 50) hne (by norm_num) (by norm_num)
    refine ⟨max y v, ?_⟩
    rw [plotStepMeasurement_eq_of_found sectionName m y r hr, hv]

theorem plotFold_measurements_some (sectionName : String) (ms : List Measurement)
    (y : ℚ) (h : ∀ m ∈ ms, ∀ r ∈ m.Results, r.Durations ≠ []) :
    ∃ y2, ms.foldl (plotStepMeasurement sectionName) (some y) = some y2 := by
  induction ms generalizing y with
  | nil => exact ⟨y, rfl⟩
  | cons m t ih =>
    rw [List.foldl_cons]
    obtain ⟨y1, hy1⟩ :=
      plotStep_some_of_nonempty sectionName m y (h m (List.mem_cons_self m t))
    rw [hy1]
    exact ih y1 (fun m' hm' => h m' (List.mem_cons_of_mem m hm'))

/-- C2 counterexample: the plot renderer skips only absent (`nil`)
results. A present result named "Op" with zero samples IS fed to the
percentile engine — the 98th-percentile lookup indexes out of bounds
(the `none` marker below is the Go panic) — and the table renderer still
renders a row for the empty result. -/
theorem C2_counterexample_empty_result_fed :
    plotYMax c2Results "Op" = none ∧ (WriteTable [c2Measurement]).length = 1 := by
  constructor
  · have hr : c2Measurement.ResultByName "Op" = some ⟨"Op", []⟩ := rfl
    have hsm : sortedMillis ⟨"Op", []⟩ = [] := rfl
    have hfold : plotYMax c2Results "Op" =
        plotStepMeasurement "Op" (some (1 / 10)) c2Measurement := rfl
    rw [hfold, plotStepMeasurement_eq_of_found "Op" c2Measurement (1 / 10) ⟨"Op", []⟩ hr,
      hsm, percentile_nil]
  · rfl

/-- C2 amended: callers skip only results that are absent under the
section's name; whenever every present result has at least one sample,
the percentile function is only applied to non-empty slices and the
y-axis bound computation completes without indexing out of bounds. -/
theorem C2_amended_nonempty_results_safe (results : List BenchmarkResult)
    (sectionName : String)
    (h : ∀ br ∈ results, ∀ m ∈ br.Measurements, ∀ r ∈ m.Results, r.Durations ≠ []) :
    ∃ y, plotYMax results sectionName = some y := by
  unfold plotYMax
  suffices h2 : ∀ (rs : List BenchmarkResult) (y : ℚ),
      (∀ br ∈ rs, ∀ m ∈ br.Measurements, ∀ r ∈ m.Results, r.Durations ≠ []) →
      ∃ y2, rs.foldl
        (fun acc br => br.Measurements.foldl (plotStepMeasurement sectionName) acc)
        (some y) = some y2 by
    exact h2 results (1 / 10) h
  intro rs
  induction rs with
  | nil => exact fun y _ => ⟨y, rfl⟩
  | cons br t ih =>
    intro y hall
    rw [List.foldl_cons]
    obtain ⟨y1, hy1⟩ := plotFold_measurements_some sectionName br.Measurements y
      (hall br (List.mem_cons_self br t))
    rw [hy1]
    exact ih y1 (fun br' hbr' => hall br' (List.mem_cons_of_mem br hbr'))

/-- Witness for the amended C2 on a run whose only result has a sample. -/
theorem C2_amended_nonempty_results_safe_witness :
    ∃ y, plotYMax [⟨"run", [⟨1, 1, [⟨"Op", [1000000]⟩]⟩]⟩] "Op" = some y :=
  C2_amended_nonempty_results_safe [⟨"run", [⟨1, 1, [⟨"Op", [1000000]⟩]⟩]⟩] "Op"
    (by decide)

/- ### The shared y-axis bound (C4) -/

/-- `percentile` with the ceiling pre-computed. -/
theorem percentile_eq_of_ceil (xs : List ℚ) (q : ℚ) (k : ℤ) (hne : xs ≠ [])
    (h0 : 0 ≤ q) (h1 : q ≤ 1) (hk : ⌈q * (xs.length : ℚ)⌉ = k) :
    percentile xs q = xs.get? (min k.toNat (xs.length - 1)) := by
  rw [percentile_eq_get? xs q hne h0 h1, hk]

theorem sortFloat64s_of_sorted (xs : List ℚ) (h : List.Sorted (· ≤ ·) xs) :
    sortFloat64s xs = xs :=
  List.Sorted.insertionSort_eq h

theorem plotFold_measurements_eq (sectionName : String) (ms : List Measurement)
    (y : ℚ)
    (h : ∀ c ∈ ms.filterMap
      (fun m => (m.ResultByName sectionName).map sortedMillis), c ≠ []) :
    ms.foldl (plotStepMeasurement sectionName) (some y) =
      some ((ms.filterMap
          (fun m => (m.ResultByName sectionName).map sortedMillis)).foldl
        (fun y2 c => max y2 ((percentile c (49 / 50)).getD 0)) y) := by
  induction ms generalizing y with
  | nil => rfl
  | cons m t ih =>
    rw [List.foldl_cons]
    cases hr : m.ResultByName sectionName with
    | none =>
      have hf : (m :: t).filterMap
          (fun m => (m.ResultByName sectionName).map sortedMillis) =
          t.filterMap (fun m => (m.ResultByName sectionName).map sortedMillis) := by
        simp only [List.filterMap_cons, hr, Option.map_none']
      rw [hf] at h ⊢
      rw [plotStepMeasurement_eq_of_absent sectionName m y hr]
      exact ih y h
    | some r =>
      have hf : (m :: t).filterMap
          (fun m => (m.ResultByName sectionName).map sortedMillis) =
          sortedMillis r ::
            t.filterMap (fun m => (m.ResultByName sectionName).map sortedMillis) := by
        simp only [List.filterMap_cons, hr, Option.map_some']
      have hcne : sortedMillis r ≠ [] := by
        apply h
        rw [hf]
        exact List.mem_cons_self _ _
      obtain ⟨v, hv⟩ :=
        percentile_isSome (sortedMillis r) (49 / 50) hcne (by norm_num) (by norm_num)
      rw [plotStepMeasurement_eq_of_found sectionName m y r hr, hv, hf, List.foldl_cons]
      have hgetD : (percentile (sortedMillis r) (49 / 50)).getD 0 = v := by
        rw [hv]
        rfl
      rw [hgetD]
      exact ih (max y v) (fun c hc => h c (by rw [hf]; exact List.mem_cons_of_mem _ hc))

theorem plotFold_results_eq (sectionName : String) (rs : List BenchmarkResult) (y : ℚ)
    (h : ∀ c ∈ (rs.map (fun br => br.Measurements.filterMap
      (fun m => (m.ResultByName sectionName).map sortedMillis))).flatten, c ≠ []) :
    rs.foldl (fun acc br => br.Measurements.foldl (plotStepMeasurement sectionName) acc)
        (some y) =
      some ((((rs.map (fun br => br.Measurements.filterMap
          (fun m => (m.ResultByName sectionName).map sortedMillis))).flatten).foldl
        (fun y2 c => max y2 ((percentile c (49 / 50)).getD 0)) y)) := by
  induction rs generalizing y with
  | nil => rfl
  | cons br t ih =>
    rw [List.foldl_cons]
    simp only [List.map_cons, List.flatten_cons] at h ⊢
    have h1 : ∀ c ∈ br.Measurements.filterMap
        (fun m => (m.ResultByName sectionName).map sortedMillis), c ≠ [] :=
      fun c hc => h c (List.mem_append_left _ hc)
    rw [plotFold_measurements_eq sectionName br.Measurements y h1, List.foldl_append]
    exact ih _ (fun c hc => h c (List.mem_append_right _ hc))

/-- C4 amended: the shared y-axis upper bound of a section before nice
rounding is the fold of `max` over all contributing curves' 98th
percentiles starting from the initial axis maximum `0.1` (so it is
`max(0.1, …)`, not the plain maximum of the percentiles); it is computed
once for the whole section. -/
theorem C4_amended_shared_bound_with_floor (results : List BenchmarkResult)
    (sectionName : String)
    (h : ∀ c ∈ sectionCurves results sectionName, c ≠ []) :
    plotYMax results sectionName =
      some ((sectionCurves results sectionName).foldl
        (fun y2 c => max y2 ((percentile c (49 / 50)).getD 0)) (1 / 10)) := by
  unfold plotYMax sectionCurves
  exact plotFold_results_eq sectionName results (1 / 10) h

/-- Witness for the amended C4 on a run with one single-sample curve. -/
theorem C4_amended_shared_bound_with_floor_witness :
    plotYMax c4WitnessResults "Op" =
      some ((sectionCurves c4WitnessResults "Op").foldl
        (fun y2 c => max y2 ((percentile c (49 / 50)).getD 0)) (1 / 10)) :=
  C4_amended_shared_bound_with_floor c4WitnessResults "Op" (by
    intro c hc
    have hsc : sectionCurves c4WitnessResults "Op" =
        [sortedMillis ⟨"Op", [1000000]⟩] := rfl
    rw [hsc, List.mem_singleton] at hc
    subst hc
    exact sortedMillis_ne_nil _ (List.cons_ne_nil _ _))

/-- C4 counterexample: a section whose only curve has 98th percentile
0.001 ms gets the shared bound 0.1 (the initial axis maximum), not the
maximum 0.001 of the contributing curves' 98th percentiles. -/
theorem C4_counterexample_initial_axis_floor :
    plotYMax c4Results "Op" = some (1 / 10) ∧
    sectionCurves c4Results "Op" = [[1 / 1000]] ∧
    percentile [(1 : ℚ) / 1000] (49 / 50) = some (1 / 1000) ∧
    ((1 : ℚ) / 10) ≠ (1 : ℚ) / 1000 := by
  have hdt : durationTo [1000] = [(1 : ℚ) / 1000] := by
    unfold durationTo
    norm_num
  have hsm : sortedMillis ⟨"Op", [1000]⟩ = [(1 : ℚ) / 1000] := by
    unfold sortedMillis
    rw [hdt]
    exact sortFloat64s_of_sorted _ (by simp)
  have hp98 : percentile [(1 : ℚ) / 1000] (49 / 50) = some (1 / 1000) := by
    rw [percentile_eq_of_ceil [(1 : ℚ) / 1000] (49 / 50) 1 (by simp)
      (by norm_num) (by norm_num) (by norm_num [Int.ceil_eq_iff])]
    rfl
  refine ⟨?_, ?_, hp98, by norm_num⟩
  · have hfold : plotYMax c4Results "Op" =
        plotStepMeasurement "Op" (some (1 / 10)) ⟨1, 1, [⟨"Op", [1000]⟩]⟩ := rfl
    rw [hfold, plotStepMeasurement_eq_of_found "Op" ⟨1, 1, [⟨"Op", [1000]⟩]⟩ (1 / 10)
      ⟨"Op", [1000]⟩ rfl, hsm, hp98]
    show some (max ((1 : ℚ) / 10) (1 / 1000)) = some (1 / 10)
    rw [max_eq_left (by norm_num)]
  · have hsc : sectionCurves c4Results "Op" = [sortedMillis ⟨"Op", [1000]⟩] := rfl
    rw [hsc, hsm]

/- ### End-to-end table scenario (C3) -/

theorem msec_20ms : msec 20000000 = "20.00" := by
  unfold msec fmt2
  rw [show ((20000000 : ℚ) / 1000000) = 20 by norm_num]
  rw [show (⌊(20 : ℚ) * 100 + 1 / 2⌋ : ℤ) = 2000 by norm_num]
  decide

theorem msec_30ms : msec 30000000 = "30.00" := by
  unfold msec fmt2
  rw [show ((30000000 : ℚ) / 1000000) = 30 by norm_num]
  rw [show (⌊(30 : ℚ) * 100 + 1 / 2⌋ : ℤ) = 3000 by norm_num]
  decide

theorem hist_c3 : NewDurationHistogram [10000000, 20000000, 30000000] =
    { Average := 20000000, Maximum := 30000000, P50 := 30000000,
      P90 := 30000000, P99 := 30000000 } := by
  have hns : nsFloats [10000000, 20000000, 30000000] =
      [(10000000 : ℚ), 20000000, 30000000] := by
    unfold nsFloats
    norm_num
  have hsorted : sortFloat64s [(10000000 : ℚ), 20000000, 30000000] =
      [(10000000 : ℚ), 20000000, 30000000] :=
    sortFloat64s_of_sorted _ (by norm_num [List.sorted_cons])
  have hmax : maxFloats [(10000000 : ℚ), 20000000, 30000000] = some 30000000 := by
    unfold maxFloats
    simp only [List.foldl_cons, List.foldl_nil]
    rw [max_self, max_eq_right (by norm_num : (10000000 : ℚ) ≤ 20000000),
      max_eq_right (by norm_num : (20000000 : ℚ) ≤ 30000000)]
  have havg : average [(10000000 : ℚ), 20000000, 30000000] = 20000000 := by
    unfold average
    norm_num
  have hne : ([(10000000 : ℚ), 20000000, 30000000] : List ℚ) ≠ [] := by simp
  have hp999 : percentile [(10000000 : ℚ), 20000000, 30000000] (999 / 1000) =
      some 30000000 := by
    rw [percentile_eq_of_ceil _ _ 3 hne (by norm_num) (by norm_num)
      (by norm_num [Int.ceil_eq_iff])]
    rfl
  have hp50 : percentile [(10000000 : ℚ), 20000000, 30000000] (1 / 2) =
      some 30000000 := by
    rw [percentile_eq_of_ceil _ _ 2 hne (by norm_num) (by norm_num)
      (by norm_num [Int.ceil_eq_iff])]
    rfl
  have hp90 : percentile [(10000000 : ℚ), 20000000, 30000000] (9 / 10) =
      some 30000000 := by
    rw [percentile_eq_of_ceil _ _ 3 hne (by norm_num) (by norm_num)
      (by norm_num [Int.ceil_eq_iff])]
    rfl
  have hp99 : percentile [(10000000 : ℚ), 20000000, 30000000] (99 / 100) =
      some 30000000 := by
    rw [percentile_eq_of_ceil _ _ 3 hne (by norm_num) (by norm_num)
      (by norm_num [Int.ceil_eq_iff])]
    rfl
  unfold NewDurationHistogram
  rw [if_neg (by decide), hns, hsorted, havg, hmax, hp999, hp50, hp90, hp99]
  simp [min_self]

theorem writeTable_c3 : WriteTable [c3Measurement] =
    [{ Parts := 1, Segments := 0, Name := "Op", Avg := "20.00", Max := "30.00",
       P50 := "30.00", P90 := "30.00", P99 := "30.00" }] := by
  unfold WriteTable c3Measurement Measurement.PrintStats
  simp only [List.map_cons, List.map_nil, List.flatten_cons, List.flatten_nil,
    List.append_nil]
  rw [hist_c3]
  show [(⟨1, 0, "Op", msec 20000000, msec 30000000, msec 30000000, msec 30000000,
    msec 30000000⟩ : Row)] = _
  rw [msec_20ms, msec_30ms]

/-- C3 counterexample: for the spec's end-to-end scenario (three samples
10ms, 20ms, 30ms under "Op", scenario (1,0)), the rendered row's P50
column is "30.00" — the claimed `P50=20.00` is false, because the
nearest-rank P50 of three samples is the element at index ⌈0.5·3⌉ = 2,
the 30 ms sample. -/
theorem C3_counterexample_p50_not_20 :
    (WriteTable [c3Measurement]).map (fun row => (row.Avg, row.Max, row.P50)) ≠
      [("20.00", "30.00", "20.00")] := by
  rw [writeTable_c3]
  decide

/-- C3 amended: the table for the scenario has exactly one data row, with
Avg 20.00, Max 30.00 (the 99.9% clamp equals the true maximum here) and
P50 30.00 — the nearest-rank P50 of `[10, 20, 30]` ms. -/
theorem C3_amended_single_row :
    WriteTable [c3Measurement] =
      [{ Parts := 1, Segments := 0, Name := "Op", Avg := "20.00", Max := "30.00",
         P50 := "30.00", P90 := "30.00", P99 := "30.00" }] :=
  writeTable_c3

end StorjBench
